import Mathlib

/-!
Shallow embedding of `src/preprocessing/PreProcessing.py` (tweet text
normalization pipeline) and verification of the specification's claims
about it.

Modelling conventions:
* Python strings are modelled as `List Char`; the embedding models ASCII
  text (Python's `str.lower`, `\b`, `\S` agree with the ASCII reading on
  ASCII input).
* A running pipeline value is either a whole string or a list of word
  tokens (`Val`), matching the two shapes the Python code passes around.
* Fallible behaviour (an `AttributeError` from an attribute that
  `__init__` never set, or a shape mismatch such as calling `.strip()` on
  a list) is modelled by `Option`: `none` means the Python call raises.
* `re.sub` calls are modelled by structurally recursive scanners that
  implement the same leftmost, greedy replacement the regexes perform.
-/

namespace PCARI

/-- Python `str.isspace` characters relevant to `str.split`/`str.strip`
(ASCII whitespace). -/
def isPySpace (c : Char) : Bool :=
  c = ' ' || c = '\t' || c = '\n' || c = '\r' || c = '\x0b' || c = '\x0c'

/-- Membership in Python's `string.punctuation`
(the 32 ASCII punctuation characters, code points 33-47, 58-64, 91-96,
123-126). -/
def isPunct (c : Char) : Bool :=
  (33 ≤ c.toNat && c.toNat ≤ 47) || (58 ≤ c.toNat && c.toNat ≤ 64) ||
  (91 ≤ c.toNat && c.toNat ≤ 96) || (123 ≤ c.toNat && c.toNat ≤ 126)

/-- Python `str.strip()` (no argument): drop leading and trailing
whitespace. -/
def pyStrip (s : List Char) : List Char :=
  ((s.dropWhile isPySpace).reverse.dropWhile isPySpace).reverse

/-- Helper for `splitWs`: accumulates the current word (reversed) while
scanning. -/
def splitWsAux (cur : List Char) : List Char → List (List Char)
  | [] => if cur.isEmpty then [] else [cur.reverse]
  | c :: cs =>
    if isPySpace c then
      if cur.isEmpty then splitWsAux [] cs else cur.reverse :: splitWsAux [] cs
    else
      splitWsAux (c :: cur) cs

/-- Python `str.split()` (no argument): split on runs of whitespace,
dropping empty pieces. -/
def splitWs (s : List Char) : List (List Char) :=
  splitWsAux [] s

/-- Python `" ".join(words)`. -/
def joinWords : List (List Char) → List Char
  | [] => []
  | [w] => w
  | w :: ws => w ++ ' ' :: joinWords ws

/-- `startsWith t s`: `t` is a prefix of `s`. -/
def startsWith : List Char → List Char → Bool
  | [], _ => true
  | _ :: _, [] => false
  | a :: as, b :: bs => a = b && startsWith as bs

/-- Python's substring test `t in s`. -/
def containsSub (t : List Char) : List Char → Bool
  | [] => t.isEmpty
  | c :: cs => startsWith t (c :: cs) || containsSub t cs

/-- Is the first character (if any) a non-space? Used by the `@[\S]+`
scanner to check that at least one non-space character follows `@`. -/
def nonSpaceHead : List Char → Bool
  | [] => false
  | d :: _ => !isPySpace d

/-- Scanner for `re.sub(r"@[\S]+", rep, ·)`.  In mode `true` it is
consuming the greedy `[\S]+` run of a match already replaced; in mode
`false` it looks for the next match position. -/
def subMentionAux (rep : List Char) : Bool → List Char → List Char
  | _, [] => []
  | true, c :: cs =>
    if isPySpace c then c :: subMentionAux rep false cs
    else subMentionAux rep true cs
  | false, c :: cs =>
    if c = '@' && nonSpaceHead cs then rep ++ subMentionAux rep true cs
    else c :: subMentionAux rep false cs

/-- `re.sub(r"@[\S]+", rep, w)`. -/
def subMention (rep : List Char) (w : List Char) : List Char :=
  subMentionAux rep false w

/-- Scanner for `re.sub(r"https?:\/\/\S*", rep, ·)`.  Mode `true`
consumes the greedy `\S*` tail of a match. -/
def subURLAux (rep : List Char) : Bool → List Char → List Char
  | _, [] => []
  | true, c :: cs =>
    if isPySpace c then c :: subURLAux rep false cs
    else subURLAux rep true cs
  | false, 'h' :: 't' :: 't' :: 'p' :: 's' :: ':' :: '/' :: '/' :: cs =>
    rep ++ subURLAux rep true cs
  | false, 'h' :: 't' :: 't' :: 'p' :: ':' :: '/' :: '/' :: cs =>
    rep ++ subURLAux rep true cs
  | false, c :: cs => c :: subURLAux rep false cs

/-- `re.sub(r"https?:\/\/\S*", rep, w)`. -/
def subURL (rep : List Char) (w : List Char) : List Char :=
  subURLAux rep false w

/-- Python regex word character (`\w`), ASCII reading. -/
def isWordChar (c : Char) : Bool :=
  c.isAlpha || c.isDigit || c = '_'

/-- `\b` after the two matched letters: end of string or a non-word
character. -/
def boundaryAfter : List Char → Bool
  | [] => true
  | d :: _ => !isWordChar d

/-- `re.compile(r"\brt\b|\bRT\b").match(w)` is truthy: anchored at the
start, `w` begins with `rt` or `RT` followed by a word boundary. -/
def rtMatch : List Char → Bool
  | 'r' :: 't' :: rest => boundaryAfter rest
  | 'R' :: 'T' :: rest => boundaryAfter rest
  | _ => false

/-- Fuel-driven scanner for `re.sub(r"([a-z])\1\1+", r"\1", ·)`: a run of
three or more identical lowercase letters collapses to one.  The fuel is
an upper bound on the remaining length, so `collapseReps` below never
exhausts it. -/
def collapseFuel : Nat → List Char → List Char
  | 0, s => s
  | _ + 1, [] => []
  | f + 1, c :: cs =>
    if c.isLower && 2 ≤ (cs.takeWhile (· = c)).length then
      c :: collapseFuel f (cs.dropWhile (· = c))
    else
      c :: collapseFuel f cs

/-- `re.sub(r"([a-z])\1\1+", r"\1", w)`. -/
def collapseReps (w : List Char) : List Char :=
  collapseFuel w.length w

/-- A value flowing through the pipeline: Python passes either a whole
string or a list of word tokens. -/
inductive Val where
  | str : List Char → Val
  | words : List (List Char) → Val
deriving DecidableEq, Repr

/-- The post-`__init__` state of each `PreProcessor` subclass.
`removeTerm`/`removeExactTerms` carry `Option` state because their
`__init__` only sets `self.term`/`self.terms` when `ignore_case` is true;
`none` models the unset attribute.  `lemmatize` carries the external
lemmatizer service as an opaque function. -/
inductive PreProcessor where
  | wordLengthFilter (min_word_length : Int)
  | wordToLowercase
  | splitWordByWhitespace
  | removePunctuationFromWords (remove_all : Bool)
  | replaceUsernameMention (replacement_token : List Char)
  | replaceURL (replacement_token : List Char)
  | removeRT (replacement_token : List Char)
  | removeLetterRepetitions
  | concatWordArray
  | removeTerm (term : Option (List Char)) (ignore_case : Bool)
  | removeExactTerms (terms : Option (List (List Char))) (ignore_case : Bool)
  | removeEmptyStrings
  | removeDigits
  | lemmatize (service : List Char → List Char)
  | removeNonAlphabet

/-- `RemoveTerm.__init__(term, ignore_case)`: stores `term.lower()` only
when `ignore_case` is true. -/
def mkRemoveTerm (term : List Char) (ignore_case : Bool := true) : PreProcessor :=
  .removeTerm (if ignore_case then some (term.map Char.toLower) else none) ignore_case

/-- `RemoveExactTerms.__init__(terms, ignore_case)`: stores the lowercased
term list only when `ignore_case` is true. -/
def mkRemoveExactTerms (terms : List (List Char)) (ignore_case : Bool := true) : PreProcessor :=
  .removeExactTerms (if ignore_case then some (terms.map (·.map Char.toLower)) else none)
    ignore_case

/-- The translation table of `RemovePunctuationFromWords.__init__`:
punctuation maps to a space; when `remove_all` is false the characters
`#`, `@`, `<`, `>` are kept. -/
def punctTranslate (remove_all : Bool) (c : Char) : Char :=
  if isPunct c && (remove_all || !(c = '#' || c = '@' || c = '<' || c = '>')) then ' '
  else c

/-- `preprocess_text` of each variant.  `none` models a raised Python
exception: an unset attribute (`removeTerm`/`removeExactTerms` built with
`ignore_case=False`, touched once the loop body runs) or an input of the
wrong shape for the variant. -/
def preprocess_text : PreProcessor → Val → Option Val
  | .wordLengthFilter n, .words ws =>
    some (.words (ws.filterMap fun w =>
      if n ≤ ((pyStrip w).length : Int) then some (pyStrip w) else none))
  | .wordToLowercase, .words ws =>
    some (.words (ws.map (·.map Char.toLower)))
  | .splitWordByWhitespace, .str s =>
    some (.words (splitWs s))
  | .removePunctuationFromWords remove_all, .words ws =>
    some (.words (ws.flatMap fun w => splitWs (w.map (punctTranslate remove_all))))
  | .replaceUsernameMention rep, .words ws =>
    some (.words (ws.map (subMention rep)))
  | .replaceURL rep, .words ws =>
    some (.words (ws.map (subURL rep)))
  | .removeRT _, .words ws =>
    some (.words (ws.filter fun w => !rtMatch w))
  | .removeLetterRepetitions, .words ws =>
    some (.words (ws.map collapseReps))
  | .concatWordArray, .words ws =>
    some (.str (joinWords ws))
  | .removeTerm term ic, .words ws =>
    if ws.isEmpty then some (.words []) else
    match term with
    | none => none
    | some t =>
      some (.words (ws.filter fun w => !containsSub t (if ic then w.map Char.toLower else w)))
  | .removeExactTerms terms ic, .words ws =>
    if ws.isEmpty then some (.words []) else
    match terms with
    | none => none
    | some ts =>
      some (.words (ws.filterMap fun w =>
        let w' := if ic then w.map Char.toLower else w
        if ts.contains w' then none else some w'))
  | .removeEmptyStrings, .words ws =>
    some (.words (ws.filter fun w => !(pyStrip w).isEmpty))
  | .removeDigits, .words ws =>
    some (.words (ws.map (·.filter fun c => !c.isDigit)))
  | .lemmatize service, .words ws =>
    some (.words (ws.map service))
  | .removeNonAlphabet, .words ws =>
    some (.words (ws.map (·.filter Char.isAlpha)))
  | _, _ => none

/-- The inner loop of both drivers: thread one value through the whole
preprocessor list, left to right. -/
def runPipeline : List PreProcessor → Val → Option Val
  | [], v => some v
  | p :: ps, v =>
    match preprocess_text p v with
    | none => none
    | some v' => runPipeline ps v'

/-- `preprocess_strings(strings, preprocessors)`: run the pipeline on each
string, then append `tweet.strip()` when it is truthy (non-empty); a final
value that is not a string makes `.strip()` raise. -/
def preprocess_strings : List (List Char) → List PreProcessor → Option (List (List Char))
  | [], _ => some []
  | s :: rest, ps =>
    match runPipeline ps (Val.str s) with
    | none => none
    | some (.words _) => none
    | some (.str t) =>
      match preprocess_strings rest ps with
      | none => none
      | some tail => some (if (pyStrip t).isEmpty then tail else pyStrip t :: tail)

/-- A tweet record: a mutable `text` field threaded through the pipeline
plus unrelated metadata untouched by it. -/
structure TextRecord where
  text : Val
  meta : Nat
deriving DecidableEq, Repr

/-- The Python object store for the record driver: records live at
numeric addresses, a batch is a list of addresses. -/
abbrev Heap := List TextRecord

/-- Option-valued elementwise traversal: the effectful list walk both
drivers perform implicitly (fails as soon as one element fails). -/
def mapMO {α β : Type} (f : α → Option β) : List α → Option (List β)
  | [] => some []
  | x :: xs =>
    match f x with
    | none => none
    | some y =>
      match mapMO f xs with
      | none => none
      | some ys => some (y :: ys)

/-- The memo dictionary `copy.deepcopy` keeps while copying: original
address to copy address. -/
def lookupMemo : List (Nat × Nat) → Nat → Option Nat
  | [], _ => none
  | (k, a) :: ms, r => if k = r then some a else lookupMemo ms r

/-- The recursive walk of `copy.deepcopy` over the batch: an address seen
before reuses the memoized copy (aliases are preserved); a first
occurrence fetches the record and allocates an independent copy at the
next fresh address (the end of the store). -/
def deepcopyAux (heap : Heap) : List Nat → List (Nat × Nat) → Heap → Option (Heap × List Nat)
  | [], _, store => some (store, [])
  | r :: rs, memo, store =>
    match lookupMemo memo r with
    | some a =>
      match deepcopyAux heap rs memo store with
      | none => none
      | some (st, refs) => some (st, a :: refs)
    | none =>
      match heap[r]? with
      | none => none
      | some tr =>
        match deepcopyAux heap rs ((r, store.length) :: memo) (store ++ [tr]) with
        | none => none
        | some (st, refs) => some (st, store.length :: refs)

/-- `copy.deepcopy(tweets)`: copy the batch with memoization, so that a
record aliased several times in the batch yields one shared copy; the
copied batch is the list of copy addresses. -/
def deepcopy (heap : Heap) (batch : List Nat) : Option (Heap × List Nat) :=
  deepcopyAux heap batch [] heap

/-- Mutate one record in place: `tweet.text = preprocessor.preprocess_text(tweet.text)`
iterated over the whole preprocessor list for that record. -/
def mutateRecord (ps : List PreProcessor) (heap : Heap) (r : Nat) : Option Heap :=
  match heap[r]? with
  | none => none
  | some tr =>
    match runPipeline ps tr.text with
    | none => none
    | some t => some (heap.set r { tr with text := t })

/-- The mutation loop of `preprocess_tweets` over the copied batch. -/
def mutateAll (ps : List PreProcessor) : Heap → List Nat → Option Heap
  | heap, [] => some heap
  | heap, r :: rs =>
    match mutateRecord ps heap r with
    | none => none
    | some h' => mutateAll ps h' rs

/-- `preprocess_tweets(tweets, preprocessors)`: deep-copy the batch, then
mutate each copied record's `text` through the pipeline; returns the
final store and the copied batch. -/
def preprocess_tweets (heap : Heap) (batch : List Nat) (ps : List PreProcessor) :
    Option (Heap × List Nat) :=
  match deepcopy heap batch with
  | none => none
  | some (h1, refs) =>
    match mutateAll ps h1 refs with
    | none => none
    | some h2 => some (h2, refs)

/-- What the string driver emits for one input string: the trimmed final
value when the pipeline ends in a non-blank string, nothing otherwise. -/
def emittedItem (ps : List PreProcessor) (s : List Char) : Option (List Char) :=
  match runPipeline ps (Val.str s) with
  | some (.str t) => if (pyStrip t).isEmpty then none else some (pyStrip t)
  | _ => none

/-- `ReplaceUsernameMention.__init__` with its default replacement token. -/
def mkReplaceUsernameMention (replacement_token : List Char := "<USERNAME>".data) :
    PreProcessor :=
  .replaceUsernameMention replacement_token

/-- Does `w` contain an occurrence of `@` followed by a non-space
character (the condition under which `@[\S]+` matches somewhere in `w`)? -/
def hasMentionOcc : List Char → Bool
  | [] => false
  | c :: cs => (c = '@' && nonSpaceHead cs) || hasMentionOcc cs

/-- The input shape each variant's `preprocess_text` is documented for:
a whole string for `SplitWordByWhitespace`, a list of word tokens for
every other variant. -/
def docShape : PreProcessor → Val → Bool
  | .splitWordByWhitespace, .str _ => true
  | .splitWordByWhitespace, .words _ => false
  | _, .words _ => true
  | _, .str _ => false

/-- The `__init__` of the variant set every attribute its
`preprocess_text` reads.  This fails exactly for `RemoveTerm` and
`RemoveExactTerms` built with `ignore_case=False`, whose `term`/`terms`
attributes stay unset. -/
def initComplete : PreProcessor → Bool
  | .removeTerm none _ => false
  | .removeExactTerms none _ => false
  | _ => true

/- ------------------------------------------------------------------ -/
/- Helper lemmas                                                       -/
/- ------------------------------------------------------------------ -/

theorem char_toNat_ofNat (n : Nat) (h : n < 55296) : (Char.ofNat n).toNat = n := by
  rw [Char.ofNat, dif_pos (Or.inl (by exact_mod_cast h))]
  rfl

theorem toLower_toLower (c : Char) : c.toLower.toLower = c.toLower := by
  unfold Char.toLower
  by_cases h : c.toNat ≥ 65 ∧ c.toNat ≤ 90
  · rw [if_pos h]
    have h1 : (Char.ofNat (c.toNat + 32)).toNat = c.toNat + 32 :=
      char_toNat_ofNat _ (by omega)
    rw [if_neg (by rw [h1]; omega)]
  · rw [if_neg h, if_neg h]

theorem filter_twice {α : Type} (p : α → Bool) (l : List α) :
    (l.filter p).filter p = l.filter p :=
  List.filter_eq_self.mpr fun _ ha => (List.mem_filter.mp ha).2

theorem map_twice {α : Type} (f : α → α) (hf : ∀ x, f (f x) = f x) (l : List α) :
    (l.map f).map f = l.map f := by
  rw [List.map_map]
  exact List.map_congr_left fun a _ => hf a

/- ------------------------------------------------------------------ -/
/- Claims                                                              -/
/- ------------------------------------------------------------------ -/

/-- Claim C7: Lowercase, RemoveDigits, RemoveNonAlphabet and
RemoveEmptyStrings are idempotent — for every list of token strings,
applying the transform twice yields the same result as applying it
once. -/
theorem c7_idempotent (ws : List (List Char)) :
    (preprocess_text .wordToLowercase (Val.words ws)).bind (preprocess_text .wordToLowercase)
      = preprocess_text .wordToLowercase (Val.words ws)
  ∧ (preprocess_text .removeDigits (Val.words ws)).bind (preprocess_text .removeDigits)
      = preprocess_text .removeDigits (Val.words ws)
  ∧ (preprocess_text .removeNonAlphabet (Val.words ws)).bind
        (preprocess_text .removeNonAlphabet)
      = preprocess_text .removeNonAlphabet (Val.words ws)
  ∧ (preprocess_text .removeEmptyStrings (Val.words ws)).bind
        (preprocess_text .removeEmptyStrings)
      = preprocess_text .removeEmptyStrings (Val.words ws) := by
  refine ⟨?_, ?_, ?_, ?_⟩ <;> simp only [preprocess_text, Option.some_bind, Option.some.injEq,
    Val.words.injEq]
  · exact map_twice _ (fun w => map_twice _ toLower_toLower w) ws
  · exact map_twice _ (fun w => filter_twice _ w) ws
  · exact map_twice _ (fun w => filter_twice _ w) ws
  · exact filter_twice _ ws

/-- Claim C10 (implicit): RemoveExactTerms with `ignore_case=True`
returns every surviving token in its lowercased form — each output token
is the lowercasing of some input token; in particular `["Hello"]` with
term list `["bye"]` yields `["hello"]`. -/
theorem c10_exact_terms_lowercases (terms ws out : List (List Char))
    (h : preprocess_text (mkRemoveExactTerms terms true) (Val.words ws)
          = some (Val.words out)) :
    (∀ w ∈ out, ∃ w0 ∈ ws, w = w0.map Char.toLower)
  ∧ preprocess_text (mkRemoveExactTerms ["bye".data] true) (Val.words ["Hello".data])
      = some (Val.words ["hello".data]) := by
  refine ⟨?_, by decide⟩
  intro w hw
  cases ws with
  | nil =>
    simp [mkRemoveExactTerms, preprocess_text] at h
    subst h
    simp at hw
  | cons w1 ws1 =>
    simp only [mkRemoveExactTerms, if_pos, preprocess_text, List.isEmpty_cons,
      Bool.false_eq_true, if_false, Option.some.injEq, Val.words.injEq] at h
    subst h
    obtain ⟨w0, hw0, hsome⟩ := List.mem_filterMap.mp hw
    refine ⟨w0, hw0, ?_⟩
    rcases ite_eq_iff.mp hsome with ⟨_, hnone⟩ | ⟨_, hsome'⟩
    · exact absurd hnone (by simp)
    · exact (Option.some.inj hsome').symm

/-- Claim C10 witness: the theorem applied at `terms = ["bye"]`,
`ws = ["Hello"]`, `out = ["hello"]`. -/
theorem c10_witness :
    (∀ w ∈ ["hello".data], ∃ w0 ∈ ["Hello".data], w = w0.map Char.toLower)
  ∧ preprocess_text (mkRemoveExactTerms ["bye".data] true) (Val.words ["Hello".data])
      = some (Val.words ["hello".data]) :=
  c10_exact_terms_lowercases ["bye".data] ["Hello".data] ["hello".data] (by decide)

/-- Claim C5 counterexample: `RemoveTerm` and `RemoveExactTerms`
constructed with `ignore_case=False` do raise on a documented input (a
nonempty list of token strings): `__init__` never set `self.term` /
`self.terms`, so `preprocess_text` hits an unset attribute (`none` in the
model). -/
theorem c5_counterexample :
    preprocess_text (mkRemoveTerm "x".data false) (Val.words ["hello".data]) = none
  ∧ preprocess_text (mkRemoveExactTerms ["x".data] false) (Val.words ["hello".data])
      = none := by
  decide

/-- Claim C5 amended: every variant whose `__init__` set all the
attributes `preprocess_text` reads (all variants and configurations
except `RemoveTerm`/`RemoveExactTerms` with `ignore_case=False`) returns
a value and does not raise on inputs of its documented shape. -/
theorem c5_no_raise_amended (p : PreProcessor) (v : Val)
    (hshape : docShape p v = true) (hinit : initComplete p = true) :
    ∃ out, preprocess_text p v = some out := by
  cases p <;> cases v <;> try exact ⟨_, rfl⟩
  all_goals try exact Bool.noConfusion hshape
  case removeTerm.words term ic ws =>
    cases term with
    | none => exact Bool.noConfusion hinit
    | some t =>
      cases ws with
      | nil => exact ⟨_, rfl⟩
      | cons w ws1 => exact ⟨_, rfl⟩
  case removeExactTerms.words terms ic ws =>
    cases terms with
    | none => exact Bool.noConfusion hinit
    | some ts =>
      cases ws with
      | nil => exact ⟨_, rfl⟩
      | cons w ws1 => exact ⟨_, rfl⟩

/-- Claim C5 witness: the amended theorem applied to `WordToLowercase`
on a concrete token list. -/
theorem c5_witness :
    ∃ out, preprocess_text .wordToLowercase (Val.words ["Hi".data]) = some out :=
  c5_no_raise_amended .wordToLowercase (Val.words ["Hi".data]) rfl rfl

/-- Claim C6 counterexample: `RemoveExactTerms(["bye"], ignore_case=False)`
applied to `["Hello"]` raises (unset `self.terms`, modelled `none`); it
does not return the list with the token kept as the claim's
case-sensitive-comparison reading predicts. -/
theorem c6_counterexample :
    preprocess_text (mkRemoveExactTerms ["bye".data] false) (Val.words ["Hello".data])
      = none
  ∧ (none : Option Val) ≠ some (Val.words ["Hello".data]) := by
  decide

/-- Claim C6 amended: for `RemoveExactTerms` constructed with
`ignore_case=False`, `preprocess_text` raises (unset `terms` attribute,
modelled as `none`) on every nonempty list of token strings, and returns
the empty list on the empty input (the loop body never runs). -/
theorem c6_ignore_case_false_amended (terms ws : List (List Char)) (h : ws ≠ []) :
    preprocess_text (mkRemoveExactTerms terms false) (Val.words ws) = none
  ∧ preprocess_text (mkRemoveExactTerms terms false) (Val.words []) = some (Val.words []) := by
  cases ws with
  | nil => exact absurd rfl h
  | cons w ws1 => exact ⟨by simp [mkRemoveExactTerms, preprocess_text], rfl⟩

/-- Claim C6 witness: the amended theorem at `terms = ["bye"]`,
`ws = ["Hello"]`. -/
theorem c6_witness :
    preprocess_text (mkRemoveExactTerms ["bye".data] false) (Val.words ["Hello".data])
      = none
  ∧ preprocess_text (mkRemoveExactTerms ["bye".data] false) (Val.words [])
      = some (Val.words []) :=
  c6_ignore_case_false_amended ["bye".data] ["Hello".data] (by decide)

theorem subMentionAux_true_nil (rep : List Char) (t : List Char)
    (h : ∀ c ∈ t, isPySpace c = false) : subMentionAux rep true t = [] := by
  induction t with
  | nil => rfl
  | cons c cs ih =>
    have hc : isPySpace c = false := h c (by simp)
    simp only [subMentionAux, hc, Bool.false_eq_true, if_false]
    exact ih fun d hd => h d (by simp [hd])

theorem subMentionAux_false_id (rep : List Char) (w : List Char)
    (h : hasMentionOcc w = false) : subMentionAux rep false w = w := by
  induction w with
  | nil => rfl
  | cons c cs ih =>
    simp only [hasMentionOcc, Bool.or_eq_false_iff, Bool.and_eq_false_iff] at h
    obtain ⟨h1, h2⟩ := h
    have hguard : (c = '@' && nonSpaceHead cs) = false := by
      rcases h1 with h1 | h1 <;> simp [h1]
    simp only [subMentionAux, hguard, Bool.false_eq_true, if_false]
    exact congrArg (c :: ·) (ih h2)

/-- Claim C9 counterexample: `re.sub` replaces matching substrings, so the
token `"x@y"` — which does not match `@[\S]+` as a whole token and is not
`@`-initial — is still changed, to `"x<USERNAME>"`; it is neither left
unchanged nor replaced wholly by the replacement token, contradicting the
claim's "replaces any token matching … and leaves every other token
unchanged". -/
theorem c9_counterexample :
    preprocess_text mkReplaceUsernameMention (Val.words ["x@y".data])
      = some (Val.words ["x<USERNAME>".data])
  ∧ "x<USERNAME>".data ≠ "x@y".data
  ∧ "x<USERNAME>".data ≠ "<USERNAME>".data := by
  decide

/-- Claim C9 amended: MentionMask with its default replacement token maps
the token list elementwise; a token containing no `@` followed by a
non-space character is left unchanged, and a token consisting of `@`
followed by one-or-more non-space characters is replaced wholly by the
replacement token (other tokens have each `@`-led non-space run replaced
inside them); in particular `["@alice", "hello"]` maps to
`["<USERNAME>", "hello"]`. -/
theorem c9_mention_amended (ws out : List (List Char))
    (h : preprocess_text mkReplaceUsernameMention (Val.words ws) = some (Val.words out)) :
    out.length = ws.length
  ∧ (∀ (j : Nat) w, ws[j]? = some w → hasMentionOcc w = false → out[j]? = some w)
  ∧ (∀ (j : Nat) t, ws[j]? = some ('@' :: t) → t ≠ [] → (∀ c ∈ t, isPySpace c = false) →
      out[j]? = some ("<USERNAME>".data))
  ∧ preprocess_text mkReplaceUsernameMention (Val.words ["@alice".data, "hello".data])
      = some (Val.words ["<USERNAME>".data, "hello".data]) := by
  have hout : out = ws.map (subMention "<USERNAME>".data) := by
    simpa [mkReplaceUsernameMention, preprocess_text, eq_comm] using h
  subst hout
  refine ⟨by simp, ?_, ?_, by decide⟩
  · intro j w hj hocc
    rw [List.getElem?_map, hj]
    simpa [subMention] using subMentionAux_false_id _ w hocc
  · intro j t hj ht hsp
    rw [List.getElem?_map, hj]
    have hguard : nonSpaceHead t = true := by
      cases t with
      | nil => exact absurd rfl ht
      | cons d ds => simp [nonSpaceHead, hsp d (by simp)]
    simp [subMention, subMentionAux, hguard, subMentionAux_true_nil _ t hsp]

/-- Claim C9 witness: the amended theorem at the spec's example input
`["@alice", "hello"]`. -/
theorem c9_witness :
    (["<USERNAME>".data, "hello".data] : List (List Char)).length
      = (["@alice".data, "hello".data] : List (List Char)).length
  ∧ (∀ (j : Nat) w, (["@alice".data, "hello".data] : List (List Char))[j]? = some w →
      hasMentionOcc w = false →
      (["<USERNAME>".data, "hello".data] : List (List Char))[j]? = some w)
  ∧ (∀ (j : Nat) t, (["@alice".data, "hello".data] : List (List Char))[j]? = some ('@' :: t) →
      t ≠ [] → (∀ c ∈ t, isPySpace c = false) →
      (["<USERNAME>".data, "hello".data] : List (List Char))[j]?
        = some ("<USERNAME>".data))
  ∧ preprocess_text mkReplaceUsernameMention (Val.words ["@alice".data, "hello".data])
      = some (Val.words ["<USERNAME>".data, "hello".data]) :=
  c9_mention_amended ["@alice".data, "hello".data] ["<USERNAME>".data, "hello".data]
    (by decide)

/-- The pipeline of the claim C1 example. -/
def pipeFilterExample : List PreProcessor :=
  [.splitWordByWhitespace, .removeEmptyStrings, .concatWordArray]

/-- Claim C1: the string-batch driver emits an output item for an input
only if, after all transforms, its trimmed form is non-empty; each
emitted item is the trimmed final value; output order follows input
order and each input yields 0 or 1 outputs (the output is the
`filterMap` of the per-item emission over the inputs, so its size is at
most the input size); in particular `["   ", "hello world"]` through
`[WhitespaceSplit, RemoveEmptyStrings, ConcatWords]` yields
`["hello world"]`. -/
theorem c1_run_on_strings :
    (∀ (strings : List (List Char)) (ps : List PreProcessor) (out : List (List Char)),
      preprocess_strings strings ps = some out →
        out = strings.filterMap (emittedItem ps) ∧ out.length ≤ strings.length)
  ∧ preprocess_strings ["   ".data, "hello world".data] pipeFilterExample
      = some ["hello world".data] := by
  constructor
  · intro strings ps out h
    have key : out = strings.filterMap (emittedItem ps) := by
      induction strings generalizing out with
      | nil =>
        simp only [preprocess_strings, Option.some.injEq] at h
        simp [← h]
      | cons s rest ih =>
        unfold preprocess_strings at h
        cases hr : runPipeline ps (Val.str s) with
        | none => rw [hr] at h; exact absurd h (by simp)
        | some v =>
          cases v with
          | words l => rw [hr] at h; exact absurd h (by simp)
          | str t =>
            rw [hr] at h
            cases hrest : preprocess_strings rest ps with
            | none => rw [hrest] at h; exact absurd h (by simp)
            | some tail =>
              rw [hrest] at h
              simp only [Option.some.injEq] at h
              rw [List.filterMap_cons, emittedItem, hr, ← ih tail hrest, ← h]
              by_cases he : (pyStrip t).isEmpty
              · simp [he]
              · simp [he]
    exact ⟨key, key ▸ List.length_filterMap_le _ _⟩
  · decide

/-- Claim C1 witness: the driver characterization applied to the spec's
example batch and pipeline. -/
theorem c1_witness :
    ["hello world".data]
      = List.filterMap (emittedItem pipeFilterExample) ["   ".data, "hello world".data]
  ∧ (["hello world".data] : List (List Char)).length
      ≤ (["   ".data, "hello world".data] : List (List Char)).length :=
  c1_run_on_strings.1 ["   ".data, "hello world".data] pipeFilterExample
    ["hello world".data] (by decide)

theorem splitWsAux_word (w : List Char) (hw : ∀ c ∈ w, isPySpace c = false) :
    ∀ (acc rest : List Char), splitWsAux acc (w ++ rest) = splitWsAux (w.reverse ++ acc) rest := by
  induction w with
  | nil => intro acc rest; simp
  | cons c cs ih =>
    intro acc rest
    have hc : isPySpace c = false := hw c (by simp)
    simp only [List.cons_append, splitWsAux, hc, Bool.false_eq_true, if_false]
    simpa using ih (fun d hd => hw d (by simp [hd])) (c :: acc) rest

theorem splitWsAux_space (acc rest : List Char) (hacc : acc ≠ []) :
    splitWsAux acc (' ' :: rest) = acc.reverse :: splitWsAux [] rest := by
  simp [splitWsAux, isPySpace, List.isEmpty_iff, hacc]

theorem splitWs_joinWords (ws : List (List Char))
    (h : ∀ w ∈ ws, w ≠ [] ∧ ∀ c ∈ w, isPySpace c = false) :
    splitWs (joinWords ws) = ws := by
  induction ws with
  | nil => rfl
  | cons w rest ih =>
    obtain ⟨hw, hwc⟩ := h w (by simp)
    cases rest with
    | nil =>
      show splitWsAux [] (joinWords [w]) = [w]
      rw [joinWords, show w = w ++ ([] : List Char) by simp, splitWsAux_word w hwc [] []]
      simp [splitWsAux, List.isEmpty_iff, hw]
    | cons w2 rest2 =>
      show splitWsAux [] (joinWords (w :: w2 :: rest2)) = w :: w2 :: rest2
      have hjw : joinWords (w :: w2 :: rest2) = w ++ ' ' :: joinWords (w2 :: rest2) := rfl
      rw [hjw, splitWsAux_word w hwc [] (' ' :: joinWords (w2 :: rest2)),
        splitWsAux_space _ _ (by simp [hw])]
      simp only [List.append_nil, List.reverse_reverse]
      exact congrArg (w :: ·) (ih fun v hv => h v (by simp [hv]))

/-- Claim C8: on a string consisting of single-space-separated,
punctuation-free, whitespace-free non-empty words (no leading, trailing
or internal multiple spaces), WhitespaceSplit followed by ConcatWords is
the identity. -/
theorem c8_roundtrip (ws : List (List Char))
    (h : ∀ w ∈ ws, w ≠ [] ∧ ∀ c ∈ w, isPySpace c = false ∧ isPunct c = false) :
    runPipeline [.splitWordByWhitespace, .concatWordArray] (Val.str (joinWords ws))
      = some (Val.str (joinWords ws)) := by
  have h' : ∀ w ∈ ws, w ≠ [] ∧ ∀ c ∈ w, isPySpace c = false :=
    fun w hw => ⟨(h w hw).1, fun c hc => ((h w hw).2 c hc).1⟩
  show some (Val.str (joinWords (splitWs (joinWords ws)))) = some (Val.str (joinWords ws))
  rw [splitWs_joinWords ws h']

/-- Claim C8 witness: the round trip applied to the two-word string
`"hello world"`. -/
theorem c8_witness :
    runPipeline [.splitWordByWhitespace, .concatWordArray]
      (Val.str (joinWords ["hello".data, "world".data]))
      = some (Val.str (joinWords ["hello".data, "world".data])) :=
  c8_roundtrip ["hello".data, "world".data] (by decide)

/-- The end-to-end pipeline of claim C4, with
`RemovePunctuation(remove_all=true)` as the claim states. -/
def pipeEndToEnd : List PreProcessor :=
  [.splitWordByWhitespace, mkReplaceUsernameMention, .replaceURL "<URL>".data,
   .removeRT "".data, .removePunctuationFromWords true, .wordToLowercase,
   .removeLetterRepetitions, .removeEmptyStrings, .concatWordArray]

/-- Claim C4 counterexample: with `remove_all=true` every punctuation
character — including the `<` and `>` of the mask tokens — is stripped,
so the pipeline's actual output on the claimed input is
`"username check this out url"`, not the claimed
`"<username> check this out <url>"`. -/
theorem c4_counterexample :
    preprocess_strings ["RT @user: Check this outttt!! http://t.co/abc123".data]
      pipeEndToEnd
      = some ["username check this out url".data]
  ∧ "username check this out url".data ≠ "<username> check this out <url>".data := by
  decide

/-- Claim C4 amended: the stated pipeline (with `remove_all=true`)
produces `"username check this out url"` — RT dropped, mention and URL
masked, punctuation (angle brackets of the masks included) stripped,
case folded, repetition collapsed; the claimed string
`"<username> check this out <url>"` is produced by the same pipeline
with `remove_all=false`, which preserves `# @ < >`. -/
theorem c4_end_to_end_amended :
    preprocess_strings ["RT @user: Check this outttt!! http://t.co/abc123".data]
      pipeEndToEnd
      = some ["username check this out url".data]
  ∧ preprocess_strings ["RT @user: Check this outttt!! http://t.co/abc123".data]
      [.splitWordByWhitespace, mkReplaceUsernameMention, .replaceURL "<URL>".data,
       .removeRT "".data, .removePunctuationFromWords false, .wordToLowercase,
       .removeLetterRepetitions, .removeEmptyStrings, .concatWordArray]
      = some ["<username> check this out <url>".data] := by
  decide

/-- Running one deep-copied record through the pipeline: the copy's
`text` is replaced by the pipeline result. -/
def modifyCopy (ps : List PreProcessor) (tr : TextRecord) : Option TextRecord :=
  match runPipeline ps tr.text with
  | none => none
  | some t => some { tr with text := t }

theorem mapMO_get? {α β : Type} (f : α → Option β) :
    ∀ (xs : List α) (ys : List β), mapMO f xs = some ys →
      ys.length = xs.length ∧ ∀ j : Nat, ys[j]? = xs[j]?.bind f := by
  intro xs
  induction xs with
  | nil =>
    intro ys h
    simp only [mapMO, Option.some.injEq] at h
    subst h
    simp
  | cons x xs ih =>
    intro ys h
    cases hfx : f x with
    | none => simp [mapMO, hfx] at h
    | some y =>
      cases hxs : mapMO f xs with
      | none => simp [mapMO, hfx, hxs] at h
      | some ys' =>
        simp only [mapMO, hfx, hxs, Option.some.injEq] at h
        subst h
        obtain ⟨hlen, hget⟩ := ih ys' hxs
        refine ⟨by simp [hlen], ?_⟩
        intro j
        cases j with
        | zero => simp [hfx]
        | succ j => simpa using hget j

theorem mutateAll_frame (ps : List PreProcessor) :
    ∀ (rs : List Nat) (h h' : Heap) (i : Nat),
      mutateAll ps h rs = some h' → (∀ r ∈ rs, r ≠ i) → h'[i]? = h[i]? := by
  intro rs
  induction rs with
  | nil =>
    intro h h' i hm _
    simp only [mutateAll, Option.some.injEq] at hm
    rw [hm]
  | cons r rs ih =>
    intro h h' i hm hni
    rw [mutateAll] at hm
    cases hr : mutateRecord ps h r with
    | none => simp [hr] at hm
    | some h1 =>
      simp only [hr] at hm
      rw [ih h1 h' i hm fun x hx => hni x (by simp [hx])]
      cases hg : h[r]? with
      | none => simp [mutateRecord, hg] at hr
      | some tr =>
        cases hp : runPipeline ps tr.text with
        | none => simp [mutateRecord, hg, hp] at hr
        | some t =>
          simp only [mutateRecord, hg, hp, Option.some.injEq] at hr
          rw [← hr]
          exact List.getElem?_set_ne (hni r (by simp))

theorem set_append_len (pre : Heap) (c : TextRecord) (cs : Heap) (v : TextRecord) :
    (pre ++ c :: cs).set pre.length v = pre ++ v :: cs := by
  induction pre with
  | nil => rfl
  | cons p ps ih => simp only [List.cons_append, List.length_cons, List.set_cons_succ, ih]

theorem getElem?_append_len (pre : Heap) (c : TextRecord) (cs : Heap) :
    (pre ++ c :: cs)[pre.length]? = some c := by
  rw [List.getElem?_append_right (Nat.le_refl _)]
  simp

theorem mutateAll_copies (ps : List PreProcessor) :
    ∀ (copies : List TextRecord) (pre : Heap),
      mutateAll ps (pre ++ copies) (List.range' pre.length copies.length)
        = (mapMO (modifyCopy ps) copies).map (fun copies' => pre ++ copies') := by
  intro copies
  induction copies with
  | nil => intro pre; rfl
  | cons c cs ih =>
    intro pre
    rw [List.length_cons, List.range'_succ]
    show (match mutateRecord ps (pre ++ c :: cs) pre.length with
          | none => none
          | some h' => mutateAll ps h' (List.range' (pre.length + 1) cs.length)) = _
    have hmr : mutateRecord ps (pre ++ c :: cs) pre.length
        = match runPipeline ps c.text with
          | none => none
          | some t => some (pre ++ { c with text := t } :: cs) := by
      simp only [mutateRecord, getElem?_append_len, set_append_len]
    rw [hmr]
    cases hc : runPipeline ps c.text with
    | none => simp [mapMO, modifyCopy, hc]
    | some t =>
      simp only [hc, mapMO, modifyCopy]
      have hres : pre ++ ({ c with text := t } : TextRecord) :: cs
          = (pre ++ [({ c with text := t } : TextRecord)]) ++ cs := by simp
      have hlen : pre.length + 1 = (pre ++ [({ c with text := t } : TextRecord)]).length := by
        simp
      have hih := ih (pre ++ [({ c with text := t } : TextRecord)])
      rw [hres, hlen, hih]
      cases hcs : mapMO (modifyCopy ps) cs with
      | none => simp [hcs]
      | some cs' => simp [hcs]

theorem lookupMemo_mem :
    ∀ (memo : List (Nat × Nat)) (r a : Nat), lookupMemo memo r = some a → (r, a) ∈ memo := by
  intro memo
  induction memo with
  | nil => intro r a h; exact Option.noConfusion h
  | cons kv ms ih =>
    intro r a h
    obtain ⟨k, v⟩ := kv
    by_cases hk : k = r
    · subst hk
      simp [lookupMemo] at h
      subst h
      exact List.mem_cons_self _ _
    · simp only [lookupMemo, if_neg hk] at h
      exact List.mem_cons_of_mem _ (ih r a h)

theorem deepcopyAux_frame (heap : Heap) :
    ∀ (batch : List Nat) (memo : List (Nat × Nat)) (store st : Heap) (refs : List Nat),
      deepcopyAux heap batch memo store = some (st, refs) →
      (∀ kv ∈ memo, heap.length ≤ kv.2) →
      heap.length ≤ store.length →
      (∃ ext, st = store ++ ext) ∧ (∀ a ∈ refs, heap.length ≤ a) := by
  intro batch
  induction batch with
  | nil =>
    intro memo store st refs h _ _
    simp only [deepcopyAux, Option.some.injEq, Prod.mk.injEq] at h
    obtain ⟨rfl, rfl⟩ := h
    exact ⟨⟨[], by simp⟩, by simp⟩
  | cons r rs ih =>
    intro memo store st refs h hmemo hs
    cases hl : lookupMemo memo r with
    | some a =>
      cases hrec : deepcopyAux heap rs memo store with
      | none => simp [deepcopyAux, hl, hrec] at h
      | some p =>
        obtain ⟨st', refs'⟩ := p
        simp only [deepcopyAux, hl, hrec, Option.some.injEq, Prod.mk.injEq] at h
        obtain ⟨rfl, rfl⟩ := h
        obtain ⟨hext, hrefs⟩ := ih memo store st' refs' hrec hmemo hs
        refine ⟨hext, ?_⟩
        intro x hx
        rcases List.mem_cons.mp hx with rfl | hx'
        · exact hmemo (r, x) (lookupMemo_mem memo r x hl)
        · exact hrefs x hx'
    | none =>
      cases hg : heap[r]? with
      | none => simp [deepcopyAux, hl, hg] at h
      | some tr =>
        cases hrec : deepcopyAux heap rs ((r, store.length) :: memo) (store ++ [tr]) with
        | none => simp [deepcopyAux, hl, hg, hrec] at h
        | some p =>
          obtain ⟨st', refs'⟩ := p
          simp only [deepcopyAux, hl, hg, hrec, Option.some.injEq, Prod.mk.injEq] at h
          obtain ⟨rfl, rfl⟩ := h
          have hmemo' : ∀ kv ∈ ((r, store.length) :: memo), heap.length ≤ kv.2 := by
            intro kv hkv
            rcases List.mem_cons.mp hkv with rfl | hkv'
            · exact hs
            · exact hmemo kv hkv'
          have hs' : heap.length ≤ (store ++ [tr]).length := by
            simp only [List.length_append, List.length_cons, List.length_nil]
            omega
          obtain ⟨⟨ext, hext⟩, hrefs⟩ := ih _ _ _ _ hrec hmemo' hs'
          refine ⟨⟨[tr] ++ ext, by simp [hext]⟩, ?_⟩
          intro x hx
          rcases List.mem_cons.mp hx with rfl | hx'
          · exact hs
          · exact hrefs x hx'

/-- Claim C2: after a successful `preprocess_tweets` call, every record
of the original store — in particular every record of the original input
batch — is unchanged (same `text`, same metadata); the returned batch
consists only of fresh copies. -/
theorem c2_records_frame (heap : Heap) (batch : List Nat) (ps : List PreProcessor)
    (h2 : Heap) (refs : List Nat)
    (h : preprocess_tweets heap batch ps = some (h2, refs)) :
    (∀ i : Nat, i < heap.length → h2[i]? = heap[i]?)
  ∧ (∀ r ∈ refs, heap.length ≤ r) := by
  cases hd : deepcopy heap batch with
  | none => simp [preprocess_tweets, hd] at h
  | some p =>
    obtain ⟨st, refs0⟩ := p
    cases hm : mutateAll ps st refs0 with
    | none => simp [preprocess_tweets, hd, hm] at h
    | some hh =>
      simp only [preprocess_tweets, hd, hm, Option.some.injEq, Prod.mk.injEq] at h
      obtain ⟨rfl, rfl⟩ := h
      obtain ⟨⟨ext, hext⟩, hrefs⟩ :=
        deepcopyAux_frame heap batch [] heap st refs0 hd (by simp) (Nat.le_refl _)
      constructor
      · intro i hi
        rw [mutateAll_frame ps refs0 st hh i hm
          fun x hx => by have := hrefs x hx; omega]
        rw [hext]
        exact List.getElem?_append_left hi
      · exact hrefs

/-- Claim C2 witness: a one-record store with an empty pipeline; the
original record at address 0 is untouched. -/
theorem c2_witness :
    (∀ i : Nat, i < ([⟨Val.str "a".data, 7⟩] : Heap).length →
      ([⟨Val.str "a".data, 7⟩, ⟨Val.str "a".data, 7⟩] : Heap)[i]?
        = ([⟨Val.str "a".data, 7⟩] : Heap)[i]?)
  ∧ (∀ r ∈ ([1] : List Nat), ([⟨Val.str "a".data, 7⟩] : Heap).length ≤ r) :=
  c2_records_frame [⟨Val.str "a".data, 7⟩] [0] []
    [⟨Val.str "a".data, 7⟩, ⟨Val.str "a".data, 7⟩] [1] (by decide)

theorem deepcopyAux_nodup (heap : Heap) :
    ∀ (batch : List Nat) (memo : List (Nat × Nat)) (store : Heap),
      batch.Nodup → (∀ r ∈ batch, lookupMemo memo r = none) →
      deepcopyAux heap batch memo store
        = match mapMO (fun r => heap[r]?) batch with
          | none => none
          | some copies => some (store ++ copies, List.range' store.length batch.length) := by
  intro batch
  induction batch with
  | nil => intro memo store _ _; simp [deepcopyAux, mapMO]
  | cons r rs ih =>
    intro memo store hnd hmm
    have hl : lookupMemo memo r = none := hmm r (by simp)
    have hrnotin : r ∉ rs := (List.nodup_cons.mp hnd).1
    have hnd' : rs.Nodup := (List.nodup_cons.mp hnd).2
    cases hg : heap[r]? with
    | none => simp [deepcopyAux, hl, hg, mapMO]
    | some tr =>
      have hmm' : ∀ x ∈ rs, lookupMemo ((r, store.length) :: memo) x = none := by
        intro x hx
        have hxr : r ≠ x := fun he => hrnotin (he ▸ hx)
        simp [lookupMemo, hxr, hmm x (by simp [hx])]
      have hih := ih ((r, store.length) :: memo) (store ++ [tr]) hnd' hmm'
      cases hmap : mapMO (fun x => heap[x]?) rs with
      | none => simp [deepcopyAux, hl, hg, hih, hmap, mapMO]
      | some copies =>
        simp [deepcopyAux, hl, hg, hih, hmap, mapMO, List.range'_succ]

theorem deepcopy_nodup (heap : Heap) (batch : List Nat) (hnd : batch.Nodup) :
    deepcopy heap batch
      = match mapMO (fun r => heap[r]?) batch with
        | none => none
        | some copies => some (heap ++ copies, List.range' heap.length batch.length) :=
  deepcopyAux_nodup heap batch [] heap hnd (fun _ _ => rfl)

/-- Claim C3 counterexample: on a batch that holds the same record twice
(addresses `[0, 0]`), `copy.deepcopy`'s memo yields one shared copy
(both returned references equal `1`) and the driver loop runs the
pipeline through it once per occurrence, so the shared record's final
text is the pipeline applied twice — `["xx@y"]` — while the pipeline
applied once to the original text gives `["x@y"]`.  The returned batch
is not in 1:1 correspondence with the input with the pipeline applied
once to each record, refuting the claim as stated over every batch. -/
theorem c3_counterexample :
    preprocess_tweets [⟨Val.words ["@a".data], 0⟩] [0, 0]
      [.replaceUsernameMention "x@y".data]
      = some ([⟨Val.words ["@a".data], 0⟩, ⟨Val.words ["xx@y".data], 0⟩], [1, 1])
  ∧ runPipeline [.replaceUsernameMention "x@y".data] (Val.words ["@a".data])
      = some (Val.words ["x@y".data])
  ∧ Val.words ["xx@y".data] ≠ Val.words ["x@y".data]
  ∧ ([1, 1] : List Nat) ≠ [1, 2] := by
  decide

/-- Claim C3 amended: for every batch of pairwise-distinct record
references (no record aliased twice in the batch), a successful
`preprocess_tweets` call returns a batch of exactly the same length and
order as the input, in 1:1 correspondence: the `j`-th returned reference
points at a copy of the `j`-th input record whose `text` is the pipeline
result (and whose metadata is unchanged) — no record is filtered out,
even when its text became empty.  (A batch repeating the same record
gets one shared copy, run through the pipeline once per occurrence,
because `copy.deepcopy` memoizes.) -/
theorem c3_records_one_to_one (heap : Heap) (batch : List Nat) (ps : List PreProcessor)
    (h2 : Heap) (refs : List Nat) (hnd : batch.Nodup)
    (h : preprocess_tweets heap batch ps = some (h2, refs)) :
    refs.length = batch.length
  ∧ ∀ (j : Nat) (r : Nat) (orig : TextRecord),
      batch[j]? = some r → heap[r]? = some orig →
        ∃ t, runPipeline ps orig.text = some t
          ∧ refs[j]? = some (heap.length + j)
          ∧ h2[heap.length + j]? = some { orig with text := t } := by
  obtain ⟨copies, hc⟩ : ∃ copies, mapMO (fun r => heap[r]?) batch = some copies := by
    cases hc0 : mapMO (fun r => heap[r]?) batch with
    | none => simp [preprocess_tweets, deepcopy_nodup heap batch hnd, hc0] at h
    | some copies => exact ⟨copies, rfl⟩
  obtain ⟨hclen, hcget⟩ := mapMO_get? _ batch copies hc
  simp only [preprocess_tweets, deepcopy_nodup heap batch hnd, hc] at h
  rw [← hclen, mutateAll_copies ps copies heap] at h
  cases hmm : mapMO (modifyCopy ps) copies with
  | none => rw [hmm] at h; exact absurd h (by simp)
  | some copies' =>
    rw [hmm] at h
    simp only [Option.map_some', Option.some.injEq, Prod.mk.injEq] at h
    obtain ⟨rfl, rfl⟩ := h
    obtain ⟨hclen', hcget'⟩ := mapMO_get? _ copies copies' hmm
    refine ⟨by simp [hclen], ?_⟩
    intro j r orig hbj hor
    have hj : j < batch.length := by
      by_contra hge
      rw [List.getElem?_eq_none (by omega)] at hbj
      exact Option.noConfusion hbj
    have hcj : copies[j]? = some orig := by
      rw [hcget j, hbj]
      exact hor
    have hcj' : copies'[j]? = modifyCopy ps orig := by
      rw [hcget' j, hcj]
      rfl
    cases hp : runPipeline ps orig.text with
    | none =>
      exfalso
      simp only [modifyCopy, hp] at hcj'
      have hjlt : j < copies'.length := by omega
      rw [List.getElem?_eq_getElem hjlt] at hcj'
      exact Option.noConfusion hcj'
    | some t =>
      refine ⟨t, rfl, ?_, ?_⟩
      · rw [List.getElem?_range' _ _ (by omega : j < copies.length)]
        simp
      · rw [List.getElem?_append_right (by omega : heap.length ≤ heap.length + j)]
        have hidx : heap.length + j - heap.length = j := by omega
        rw [hidx, hcj']
        simp [modifyCopy, hp]

/-- Claim C3 witness: a one-record store, the duplicate-free batch `[0]`
and the empty pipeline; the returned batch is `[1]`, the fresh copy of
record 0. -/
theorem c3_witness :
    ([1] : List Nat).length = ([0] : List Nat).length
  ∧ ∀ (j : Nat) (r : Nat) (orig : TextRecord),
      ([0] : List Nat)[j]? = some r →
      ([⟨Val.str "a".data, 7⟩] : Heap)[r]? = some orig →
        ∃ t, runPipeline [] orig.text = some t
          ∧ ([1] : List Nat)[j]? = some (1 + j)
          ∧ ([⟨Val.str "a".data, 7⟩, ⟨Val.str "a".data, 7⟩] : Heap)[1 + j]?
              = some { orig with text := t } :=
  c3_records_one_to_one [⟨Val.str "a".data, 7⟩] [0] []
    [⟨Val.str "a".data, 7⟩, ⟨Val.str "a".data, 7⟩] [1] (by decide) (by decide)

end PCARI
